import Mathlib

/-!
# Verification of the `bayes_meeg` sampling engine

Shallow embedding of `bayes_meeg/samplers.py`: the conditional hyperprior
rejection sampler (`_cond_gamma_hyperprior_sampler` /
`cond_gamma_hyperprior_sampler`), the single-coordinate slice sampler
(`sc_slice_sampler`) and the block-Gibbs driver
(`L21_gamma_hypermodel_sampler`).

Modelling conventions:
* Python floats are modelled as real numbers `ℝ`.
* Partial arithmetic (`math.sqrt` on a negative argument, `math.log` on a
  non-positive argument, float division by zero) raises in Python; it is
  modelled by `Except String` values carrying the Python error message.
* Randomness is modelled by explicit oracle streams: `np.random.rand()`
  draws become values of a caller-supplied stream, the seeded permutation
  generator becomes a list-valued oracle, and the external truncated-normal
  primitive `rtnorm` (repository module `bayes_meeg.pyrtnorm`, not part of
  the analysed sources) becomes an opaque oracle function of its four
  arguments `(a, b, mu, sigma)`.
* The rejection sampler's unbounded `while True` accept/reject loop is
  modelled with explicit fuel, returning `none` when the fuel runs out.
-/

open scoped BigOperators

/-- Python float division `x / y`: raises `ZeroDivisionError` on `y = 0`. -/
noncomputable def pyDiv (x y : ℝ) : Except String ℝ :=
  if y = 0 then .error "ZeroDivisionError: float division by zero" else .ok (x / y)

/-- Python `math.sqrt x`: raises a `math domain error` on negative input. -/
noncomputable def pySqrt (x : ℝ) : Except String ℝ :=
  if x < 0 then .error "ValueError: math domain error" else .ok (Real.sqrt x)

/-- Python `math.log x`: raises a `math domain error` on non-positive input. -/
noncomputable def pyLog (x : ℝ) : Except String ℝ :=
  if x ≤ 0 then .error "ValueError: math domain error" else .ok (Real.log x)

/-- Python `math.log1p x = log (1 + x)`. -/
noncomputable def log1p (x : ℝ) : ℝ := Real.log (1 + x)

/-- Error-propagating left fold used to model Python `for` loops whose body
may raise. -/
def exFold {α β : Type} (f : β → α → Except String β) : List α → β → Except String β
  | [], b => .ok b
  | a :: l, b =>
    match f b a with
    | .error e => .error e
    | .ok b' => exFold f l b'

/-!
## Hyperparameter conditional sampler (`_cond_gamma_hyperprior_sampler`)

The `while True` accept/reject loop, lines 29–45 of `samplers.py`.  The
stream `s` supplies the successive `np.random.rand()` draws (`w, u, v` are
three consecutive draws), `i` is the current position in the stream and the
first argument of the recursion is the remaining fuel.
-/

noncomputable def condLoop (coupling beta logPmax xCeil logPMassOverCeil logPMassTotal : ℝ)
    (s : ℕ → ℝ) : ℕ → ℕ → Option ℝ
  | 0, _ => none
  | fuel + 1, i =>
    let w := s i
    let u := s (i + 1)
    let v := s (i + 2)
    if Real.log w + logPMassTotal < logPMassOverCeil then
      -- exponential tail region
      let logV := Real.log v - xCeil / beta
      let gamma := -beta * logV
      if Real.log u * beta < coupling / logV then some gamma
      else condLoop coupling beta logPmax xCeil logPMassOverCeil logPMassTotal s fuel (i + 3)
    else
      -- rectangle region
      let gamma := v * xCeil
      if Real.log u + logPmax < -coupling / gamma - gamma / beta then some gamma
      else condLoop coupling beta logPmax xCeil logPMassOverCeil logPMassTotal s fuel (i + 3)

/-- Scalar conditional hyperprior sampler, `_cond_gamma_hyperprior_sampler`
(lines 10–47 of `samplers.py`).  `s` is the stream of uniform draws; `fuel`
bounds the accept/reject loop, `none` meaning the loop did not accept within
the fuel. -/
noncomputable def cond_gamma_hyperprior_sampler' (coupling beta : ℝ) (s : ℕ → ℝ)
    (fuel : ℕ) : Option ℝ :=
  if coupling = 0 then some (-beta * Real.log (s 0))
  else
    let gammaMax := Real.sqrt (beta * coupling)
    let logPmax := -coupling / gammaMax - gammaMax / beta
    let xCeil := beta * coupling / gammaMax + gammaMax
    let logPMassOverCeil := Real.log beta - xCeil / beta
    let logPMassBelowXCeil := logPmax + Real.log xCeil
    let logPMassTotal := logPMassOverCeil + log1p (Real.exp (logPMassBelowXCeil - logPMassOverCeil))
    condLoop coupling beta logPmax xCeil logPMassOverCeil logPMassTotal s fuel 0

/-- Vector form of `cond_gamma_hyperprior_sampler` (lines 55–62 of
`samplers.py`): element `i` of the coupling list is sampled with its own
uniform stream `S i`; the whole call yields `none` as soon as one element
does. -/
noncomputable def cond_gamma_hyperprior_sampler_vec (beta : ℝ) (S : ℕ → ℕ → ℝ)
    (fuel : ℕ) : List ℝ → ℕ → Option (List ℝ)
  | [], _ => some []
  | c :: cs, i =>
    match cond_gamma_hyperprior_sampler' c beta (S i) fuel,
          cond_gamma_hyperprior_sampler_vec beta S fuel cs (i + 1) with
    | some g, some gs => some (g :: gs)
    | _, _ => none

/-!
## Coordinate slice sampler (`sc_slice_sampler`, lines 65–92)
-/

/-- One sweep of the slice sampler loop (lines 77–91 of `samplers.py`).
`t` is the `np.random.rand()` draw of this sweep and `rt` the truncated
normal primitive `rtnorm` applied to `(a, b, mu, sigma)`.  `rt` is an oracle,
modelled from the spec: `rtnorm` (module `bayes_meeg.pyrtnorm`) returns an
exact sample from the normal distribution `N(mu, sigma^2)` restricted to the
interval `[a, b]`. -/
noncomputable def scSweep (c d mu sigma x t : ℝ) (rt : ℝ → ℝ → ℝ → ℝ → ℝ) :
    Except String ℝ :=
  match pySqrt (x ^ 2 + d) with
  | .error e => .error e
  | .ok s1 =>
    let log_gy := -c * s1
    match pyLog t with
    | .error e => .error e
    | .ok lt =>
      let log_y := log_gy + lt
      match pyDiv (-log_y) c with
      | .error e => .error e
      | .ok q =>
        match pySqrt (q ^ 2 - d) with
        | .error e => .error e
        | .ok xi => if xi > 0 then .ok (rt (-xi) xi mu sigma) else .ok 0

/-- The `for k in range(n_samples)` loop of `sc_slice_sampler`.  `k` is the
index of the current sweep (used to address the oracle streams), the first
argument the number of remaining sweeps. -/
noncomputable def scLoop (c d mu sigma : ℝ) (ts : ℕ → ℝ) (rt : ℕ → ℝ → ℝ → ℝ → ℝ → ℝ) :
    ℕ → ℕ → ℝ → Except String ℝ
  | 0, _, x => .ok x
  | m + 1, k, x =>
    match scSweep c d mu sigma x (ts k) (rt k) with
    | .error e => .error e
    | .ok x' => scLoop c d mu sigma ts rt m (k + 1) x'

/-- `sc_slice_sampler(a, b, c, d, x0, n_samples)` (lines 65–92 of
`samplers.py`).  `ts k` is the uniform drawn in sweep `k`; `rt k` is the
truncated-normal oracle for sweep `k`. -/
noncomputable def sc_slice_sampler (a b c d x0 : ℝ) (n_samples : ℕ)
    (ts : ℕ → ℝ) (rt : ℕ → ℝ → ℝ → ℝ → ℝ → ℝ) : Except String ℝ :=
  if ¬(a = 0 ∧ b = 0) then
    match pySqrt (2 * a) with
    | .error e => .error e
    | .ok s2a =>
      match pyDiv 1 s2a with
      | .error e => .error e
      | .ok sigma =>
        match pyDiv b (2 * a) with
        | .error e => .error e
        | .ok mu => scLoop c d mu sigma ts rt n_samples 0 x0
  else .error "ValueError: this should not happen"

/-!
## Block Gibbs driver (`L21_gamma_hypermodel_sampler`, lines 96–171)

Matrices are total functions `ℕ → ℕ → ℝ`; only indices below the declared
dimensions are ever read or written by the driver.
-/

/-- The fixed inputs and oracles of one driver run.  `nS, nD, nT, nO` are the
numbers of sensors, dipoles, time points and orientations per location; `G`
is the forward operator (sensors × dipoles) and `M` the data
(sensors × times).  `permOracle k j` models `rng.permutation(n_locations)`
for outer iteration `k`, inner sweep `j`; `condOracle k i` is the uniform
stream consumed by the hyperprior sampler for group `i` in outer iteration
`k`; `tOracle n` and `rtOracle n` are the uniform stream and the
truncated-normal oracle of the `n`-th slice-sampler call of the run. -/
structure DriverCtx where
  nS : ℕ
  nD : ℕ
  nT : ℕ
  nO : ℕ
  G : ℕ → ℕ → ℝ
  M : ℕ → ℕ → ℝ
  beta : ℝ
  sc_n_samples : ℕ
  ss_n_samples : ℕ
  fuel : ℕ
  permOracle : ℤ → ℕ → List ℕ
  condOracle : ℤ → ℕ → ℕ → ℝ
  tOracle : ℕ → ℕ → ℝ
  rtOracle : ℕ → ℕ → ℝ → ℝ → ℝ → ℝ → ℝ

/-- `n_locations = n_dipoles // n_orient` (line 100). -/
def DriverCtx.nL (ctx : DriverCtx) : ℕ := ctx.nD / ctx.nO

/-- `GColSqNorm = np.sum(G ** 2, axis=0)` (line 107): squared Euclidean norm
of column `j` of the forward operator. -/
noncomputable def GColSqNorm (nS : ℕ) (G : ℕ → ℕ → ℝ) (j : ℕ) : ℝ :=
  ∑ i ∈ Finset.range nS, (G i j) ^ 2

/-- `GTM = np.dot(G.T, M)` (line 108). -/
noncomputable def GTM (nS : ℕ) (G M : ℕ → ℕ → ℝ) (j t : ℕ) : ℝ :=
  ∑ i ∈ Finset.range nS, G i j * M i t

/-- `GTG = np.dot(G.T, G)` (line 109). -/
noncomputable def GTG (nS : ℕ) (G : ℕ → ℕ → ℝ) (j j' : ℕ) : ℝ :=
  ∑ i ∈ Finset.range nS, G i j * G i j'

/-- The quadratic coefficient handed to the slice sampler for location
`jLoc`: `a = GColSqNorm[jLoc] / 2.` (line 129). -/
noncomputable def aCoeff (nS : ℕ) (G : ℕ → ℕ → ℝ) (jLoc : ℕ) : ℝ :=
  GColSqNorm nS G jLoc / 2

/-- The spec's reading of the coefficient, stated for comparison with
`aCoeff`: the total squared norm of all `n_orient` forward-operator columns
belonging to group `jLoc`, divided by 2 ("a = (column-squared-norm of that
group's forward-operator columns) / 2"). -/
noncomputable def specGroupQuadCoeff (nS nO : ℕ) (G : ℕ → ℕ → ℝ) (jLoc : ℕ) : ℝ :=
  (∑ o ∈ Finset.range nO, GColSqNorm nS G (jLoc * nO + o)) / 2

/-- `X0.all()` (line 111): every entry of the initial amplitude matrix in
range is nonzero. -/
def X0all (nD nT : ℕ) (X0 : ℕ → ℕ → ℝ) : Prop :=
  ∀ j < nD, ∀ t < nT, X0 j t ≠ 0

open Classical in
/-- Lines 111–114: `X = zeros` when `not X0.all()`, else `X = X0`. -/
noncomputable def initX (nD nT : ℕ) (X0 : ℕ → ℕ → ℝ) : ℕ → ℕ → ℝ :=
  if ¬X0all nD nT X0 then fun _ _ => 0 else X0

/-- `linalg.norm(XLoc, 'fro') ** 2` (line 134): squared Frobenius norm of the
amplitude sub-block of location `jLoc` (rows `jLoc*nO … jLoc*nO + nO - 1`,
all `nT` time columns). -/
noncomputable def blockFrobSq (nO nT : ℕ) (X : ℕ → ℕ → ℝ) (jLoc : ℕ) : ℝ :=
  ∑ o ∈ Finset.range nO, ∑ t ∈ Finset.range nT, (X (jLoc * nO + o) t) ^ 2

/-- Modelled from the spec: the external group-norm utility `groups_norm2`
(imported from `mne.inverse_sparse.mxne_optim`, line 5) — "given a matrix
partitioned into fixed-size row blocks, returns the squared L2 norm of each
block (one scalar per group)". -/
noncomputable def groups_norm2 (nO nT : ℕ) (X : ℕ → ℕ → ℝ) (jLoc : ℕ) : ℝ :=
  ∑ o ∈ Finset.range nO, ∑ t ∈ Finset.range nT, (X (jLoc * nO + o) t) ^ 2

/-- Write value `v` into entry `(j, t)` of the amplitude matrix
(`X[jComp, jTime] = XjComp`, line 152). -/
def updEntry (X : ℕ → ℕ → ℝ) (j t : ℕ) (v : ℝ) : ℕ → ℕ → ℝ :=
  fun j' t' => if j' = j ∧ t' = t then v else X j' t'

/-- Body of the innermost loop (lines 139–152) for the (time, orientation)
pair `p = (jTime, jDir)` of location `jLoc`: compute `b` and `d`, call the
slice sampler on the current entry, then update the running squared norm and
the amplitude matrix.  The state is `(X, XLocSqNorm, cnt)` where `cnt`
counts the slice-sampler calls issued so far (it addresses the oracle
streams). -/
noncomputable def entryStep (ctx : DriverCtx) (a c : ℝ) (jLoc : ℕ) (p : ℕ × ℕ)
    (st : (ℕ → ℕ → ℝ) × ℝ × ℕ) : Except String ((ℕ → ℕ → ℝ) × ℝ × ℕ) :=
  let jTime := p.1
  let jDir := p.2
  let X := st.1
  let XLocSqNorm := st.2.1
  let cnt := st.2.2
  let jComp := jDir + jLoc * ctx.nO
  let XjComp := X jComp jTime
  let b := GTM ctx.nS ctx.G ctx.M jComp jTime -
      (∑ j ∈ Finset.range ctx.nD, X j jTime * GTG ctx.nS ctx.G j jComp) + 2 * a * XjComp
  let d := XLocSqNorm - XjComp ^ 2
  Except.map (fun v => (updEntry X jComp jTime v, d + v ^ 2, cnt + 1))
    (sc_slice_sampler a b c d XjComp ctx.ss_n_samples (ctx.tOracle cnt) (ctx.rtOracle cnt))

/-- The fixed visiting order of the (time, orientation) pairs (lines
137–138): all time points, and for each all orientations, without shuffling. -/
def pairList (nT nO : ℕ) : List (ℕ × ℕ) :=
  ((List.range nT).map (fun t => (List.range nO).map (fun o => (t, o)))).flatten

/-- Per-location update (lines 127–152): compute `a` and `c`, take the
current squared Frobenius norm of the location's sub-block, then run the
innermost loop over all (time, orientation) pairs. -/
noncomputable def groupPass (ctx : DriverCtx) (gammas : ℕ → ℝ) (jLoc : ℕ)
    (st : (ℕ → ℕ → ℝ) × ℕ) : Except String ((ℕ → ℕ → ℝ) × ℕ) :=
  let a := aCoeff ctx.nS ctx.G jLoc
  let c := 1 / gammas jLoc
  let s0 := blockFrobSq ctx.nO ctx.nT st.1 jLoc
  match exFold (fun s p => entryStep ctx a c jLoc p s) (pairList ctx.nT ctx.nO)
      (st.1, s0, st.2) with
  | .error e => .error e
  | .ok (X', _, cnt') => .ok (X', cnt')

/-- One single-component Gibbs sweep (lines 126–152): draw a permutation of
the locations and visit each in that order. -/
noncomputable def innerSweepOnce (ctx : DriverCtx) (gammas : ℕ → ℝ) (k : ℤ) (kSC : ℕ)
    (st : (ℕ → ℕ → ℝ) × ℕ) : Except String ((ℕ → ℕ → ℝ) × ℕ) :=
  exFold (fun s jLoc => groupPass ctx gammas jLoc s) (ctx.permOracle k kSC) st

/-- The `for kSCGibbs in range(sc_n_samples)` loop (lines 123–152). -/
noncomputable def innerSweeps (ctx : DriverCtx) (gammas : ℕ → ℝ) (k : ℤ)
    (st : (ℕ → ℕ → ℝ) × ℕ) : Except String ((ℕ → ℕ → ℝ) × ℕ) :=
  exFold (fun s kSC => innerSweepOnce ctx gammas k kSC s) (List.range ctx.sc_n_samples) st

/-- Full mutable state of the driver: the amplitude matrix, the current
hyperparameters, the number of slice-sampler calls issued so far, and the
two sample chains accumulated so far. -/
structure DState where
  X : ℕ → ℕ → ℝ
  gammas : ℕ → ℝ
  cnt : ℕ
  XChain : List (ℕ → ℕ → ℝ)
  gammaChain : List (ℕ → ℝ)

/-- `XBlkNorm = np.sqrt(groups_norm2(X.copy(), n_orient))` (line 163): the
per-group amplitude norms fed to the hyperprior sampler. -/
noncomputable def couplingsOf (ctx : DriverCtx) (X : ℕ → ℕ → ℝ) : List ℝ :=
  (List.range ctx.nL).map (fun j => Real.sqrt (groups_norm2 ctx.nO ctx.nT X j))

/-- One outer iteration of the driver (lines 116–169) at iteration index
`k` (ranging over `-n_burnin … n_samples - 1`): run the inner sweeps, redraw
the hyperparameter vector from the per-group amplitude norms, and, when
`k ≥ 0`, append the current `X` and `gamma` snapshots to the chains. -/
noncomputable def outerIter (ctx : DriverCtx) (k : ℤ) (s : DState) : Except String DState :=
  match innerSweeps ctx s.gammas k (s.X, s.cnt) with
  | .error e => .error e
  | .ok (X1, cnt1) =>
    match cond_gamma_hyperprior_sampler_vec ctx.beta (ctx.condOracle k) ctx.fuel
        (couplingsOf ctx X1) 0 with
    | none => .error "hyperprior sampler: accept/reject loop did not terminate"
    | some gs =>
      if 0 ≤ k then
        .ok ⟨X1, fun j => gs.getD j 0, cnt1,
          s.XChain ++ [X1], s.gammaChain ++ [fun j => gs.getD j 0]⟩
      else
        .ok ⟨X1, fun j => gs.getD j 0, cnt1, s.XChain, s.gammaChain⟩

/-- Folding `outerIter` over a list of iteration indices. -/
noncomputable def outerFold (ctx : DriverCtx) : List ℤ → DState → Except String DState
  | [], s => .ok s
  | k :: l, s =>
    match outerIter ctx k s with
    | .error e => .error e
    | .ok s' => outerFold ctx l s'

/-- The iteration indices `range(-n_burnin, n_samples)` (line 116). -/
def ksList (n_burnin n_samples : ℕ) : List ℤ :=
  (List.range (n_burnin + n_samples)).map (fun i : ℕ => (i : ℤ) - n_burnin)

/-- Initial driver state (lines 103–114): `X` from `X0` (zeros unless every
entry of `X0` is nonzero), the caller's hyperparameters, empty chains. -/
noncomputable def initState (ctx : DriverCtx) (X0 : ℕ → ℕ → ℝ) (gammas0 : ℕ → ℝ) : DState :=
  ⟨initX ctx.nD ctx.nT X0, gammas0, 0, [], []⟩

/-- `L21_gamma_hypermodel_sampler` (lines 96–171): run all outer iterations
and return the two chains. -/
noncomputable def L21_gamma_hypermodel_sampler (ctx : DriverCtx) (X0 : ℕ → ℕ → ℝ)
    (gammas0 : ℕ → ℝ) (n_burnin n_samples : ℕ) :
    Except String (List (ℕ → ℕ → ℝ) × List (ℕ → ℝ)) :=
  match outerFold ctx (ksList n_burnin n_samples) (initState ctx X0 gammas0) with
  | .error e => .error e
  | .ok s => .ok (s.XChain, s.gammaChain)

/-!
## Concrete inputs used by counterexamples and witnesses
-/

/-- One sensor, two dipoles, `G = [[1, 2]]`. -/
def GcA : ℕ → ℕ → ℝ := fun _ j => if j = 0 then 1 else 2

/-- A 1 × 2 initial amplitude matrix `[[1, 0]]`: not all-zeros, but with one
zero entry. -/
def X0c : ℕ → ℕ → ℝ := fun j t => if j = 0 ∧ t = 0 then 1 else 0

/-- A minimal concrete driver configuration (one sensor, one dipole, one
time point, one orientation, `G = [[1]]`, `M = [[0]]`, no inner sweeps, no
slice sweeps) with hyperprior scale `beta`; every uniform oracle yields
`exp(-1)`. -/
noncomputable def mkCtxW (beta : ℝ) : DriverCtx where
  nS := 1
  nD := 1
  nT := 1
  nO := 1
  G := fun _ _ => 1
  M := fun _ _ => 0
  beta := beta
  sc_n_samples := 0
  ss_n_samples := 0
  fuel := 1
  permOracle := fun _ _ => []
  condOracle := fun _ _ _ => Real.exp (-1)
  tOracle := fun _ _ => Real.exp (-1)
  rtOracle := fun _ _ _ _ _ _ => 0

/-!
## C4 / C9: the slice sampler's precondition guard
-/

/-- C4: for every `c`, `d`, `x0`, `n_samples` (and any randomness), calling
the slice sampler with `a = 0` and `b = 0` yields the hard error
`ValueError: this should not happen` — no value is returned, and the error
is raised before any sweep runs (the result does not depend on the sweep
count or the oracles). -/
theorem sc_slice_sampler_rejects_degenerate (c d x0 : ℝ) (n : ℕ)
    (ts : ℕ → ℝ) (rt : ℕ → ℝ → ℝ → ℝ → ℝ → ℝ) :
    sc_slice_sampler 0 0 c d x0 n ts rt = .error "ValueError: this should not happen" := by
  simp [sc_slice_sampler]

/-- C9: the guard accepts `a = 0` with `b ≠ 0`; the subsequent computation
`sigma = 1 / sqrt(2 a)` then divides by zero, so the call fails with an
unnamed `ZeroDivisionError` instead of the documented fatal `ValueError`. -/
theorem sc_slice_sampler_zero_a_div_zero (b c d x0 : ℝ) (n : ℕ)
    (ts : ℕ → ℝ) (rt : ℕ → ℝ → ℝ → ℝ → ℝ → ℝ) (hb : b ≠ 0) :
    sc_slice_sampler 0 b c d x0 n ts rt = .error "ZeroDivisionError: float division by zero" := by
  simp [sc_slice_sampler, pySqrt, pyDiv, hb]

/-- Witness for C9 at `b = 1`. -/
theorem sc_slice_sampler_zero_a_div_zero_witness :
    sc_slice_sampler 0 1 1 1 0 1 (fun _ => 0) (fun _ _ _ _ _ => 0) =
      .error "ZeroDivisionError: float division by zero" :=
  sc_slice_sampler_zero_a_div_zero 1 1 1 0 1 (fun _ => 0) (fun _ _ _ _ _ => 0) one_ne_zero

/-!
## C1: the quadratic coefficient fed to the slice sampler
-/

/-- C1 counterexample: with one sensor, two dipoles and two orientations per
location (`G = [[1, 2]]`, a single group), the coefficient the driver uses
for group 0, `GColSqNorm[0] / 2 = 1/2`, is not the squared norm of the
group's two forward-operator columns divided by 2, which is `(1 + 4)/2`. -/
theorem aCoeff_ne_specGroupQuadCoeff : aCoeff 1 GcA 0 ≠ specGroupQuadCoeff 1 2 GcA 0 := by
  simp only [aCoeff, specGroupQuadCoeff, GColSqNorm, GcA]
  norm_num [Finset.sum_range_succ]

/-- C1 amended: the coefficient `a` used for every coordinate update of
group `jLoc` is the squared norm of the single forward-operator column whose
index equals the group index, divided by 2 (independent of orientation, time
point and sweep); it agrees with the group-columns reading only when
`n_orient = 1`. -/
theorem aCoeff_eq_single_column (nS : ℕ) (G : ℕ → ℕ → ℝ) (jLoc : ℕ) :
    aCoeff nS G jLoc = (∑ i ∈ Finset.range nS, (G i jLoc) ^ 2) / 2 ∧
    specGroupQuadCoeff nS 1 G jLoc = aCoeff nS G jLoc := by
  refine ⟨rfl, ?_⟩
  simp [specGroupQuadCoeff, aCoeff]

/-- Witness for C1's amended statement at the counterexample operator. -/
theorem aCoeff_eq_single_column_witness :
    specGroupQuadCoeff 1 1 GcA 0 = aCoeff 1 GcA 0 :=
  (aCoeff_eq_single_column 1 GcA 0).2

/-!
## C2: initialisation of the amplitude matrix
-/

/-- C2 counterexample: the caller-supplied starting matrix `[[1, 0]]` is not
the all-zeros sentinel (its `(0,0)` entry is `1`), yet the driver starts
from the all-zeros matrix: `numpy`'s `X0.all()` is false as soon as any
single entry is zero. -/
theorem initX_zeroes_nonsentinel : initX 1 2 X0c 0 0 = 0 ∧ X0c 0 0 = 1 := by
  have h : ¬X0all 1 2 X0c := by
    intro h
    exact h 0 one_pos 1 one_lt_two (by simp [X0c])
  rw [initX, if_pos h]
  exact ⟨rfl, by simp [X0c]⟩

/-- C2 amended: the driver begins sampling from `X0` exactly when every
entry of `X0` is nonzero; whenever any entry of `X0` is zero (in particular
for the all-zeros sentinel) the all-zeros starting matrix is substituted. -/
theorem initX_cases (nD nT : ℕ) (X0 : ℕ → ℕ → ℝ) :
    (X0all nD nT X0 → initX nD nT X0 = X0) ∧
    ((∃ j < nD, ∃ t < nT, X0 j t = 0) → initX nD nT X0 = fun _ _ => 0) := by
  constructor
  · intro h
    rw [initX, if_neg (not_not_intro h)]
  · rintro ⟨j, hj, t, ht, hz⟩
    have h : ¬X0all nD nT X0 := fun h => h j hj t ht hz
    rw [initX, if_pos h]

/-- Witness for C2's amended statement: an all-nonzero start is kept. -/
theorem initX_cases_witness : initX 1 1 (fun _ _ => 1) = fun _ _ => (1 : ℝ) :=
  (initX_cases 1 1 (fun _ _ => 1)).1 (fun _ _ _ _ => one_ne_zero)

/-!
## Evaluation lemmas for the Python arithmetic primitives
-/

lemma pySqrt_of_nonneg {x : ℝ} (h : 0 ≤ x) : pySqrt x = .ok (Real.sqrt x) := by
  rw [pySqrt, if_neg (not_lt.mpr h)]

lemma pyLog_of_pos {x : ℝ} (h : 0 < x) : pyLog x = .ok (Real.log x) := by
  rw [pyLog, if_neg (not_le.mpr h)]

lemma pyDiv_of_ne {x y : ℝ} (h : y ≠ 0) : pyDiv x y = .ok (x / y) := by
  rw [pyDiv, if_neg h]

lemma pyDiv_zero (x : ℝ) : pyDiv x 0 = .error "ZeroDivisionError: float division by zero" := by
  rw [pyDiv, if_pos rfl]

/-!
## C6: branch behaviour of one slice-sampler sweep
-/

/-- The sweep's slice level `log_y = -c * sqrt(x^2 + d) + log t` (lines
79–82). -/
noncomputable def sliceLogY (c d x t : ℝ) : ℝ := -c * Real.sqrt (x ^ 2 + d) + Real.log t

/-- The argument under the root in `xi = sqrt((-log_y/c)^2 - d)` (line 85). -/
noncomputable def sliceXiArg (c d x t : ℝ) : ℝ := (-sliceLogY c d x t / c) ^ 2 - d

/-- The slice boundary `xi` (line 85). -/
noncomputable def sliceXi (c d x t : ℝ) : ℝ := Real.sqrt (sliceXiArg c d x t)

/-- C6 counterexample: at `c = 0` (allowed by the claim's "valid inputs
`c ≥ 0`"), the sweep neither sets `x = 0` nor draws from the truncated
normal — computing `-log_y / c` raises `ZeroDivisionError`. -/
theorem scSweep_zero_c_div_zero :
    scSweep 0 1 0 1 0 (Real.exp (-1)) (fun _ _ _ _ => 0) =
      .error "ZeroDivisionError: float division by zero" ∧
    (Except.error "ZeroDivisionError: float division by zero" ≠
      (Except.ok 0 : Except String ℝ)) := by
  constructor
  · rw [scSweep]
    simp only [pySqrt_of_nonneg (show (0 : ℝ) ≤ 0 ^ 2 + 1 by norm_num),
      pyLog_of_pos (Real.exp_pos (-1)), pyDiv_zero]
  · exact fun h => Except.noConfusion h

/-- C6 amended: in every sweep of the slice sampler with `c > 0`, `d ≥ 0`
and uniform draw `t ∈ (0,1)`: if the argument under the root were negative
or `xi ≤ 0`, the sweep would deterministically produce `0`; otherwise the
new state is the truncated-normal draw on `[-xi, xi]` with parameters
`(mu, sigma)` — and in fact `xi > 0` always holds, so the sweep always
draws. -/
theorem scSweep_cases (c d mu sigma x t : ℝ) (rt : ℝ → ℝ → ℝ → ℝ → ℝ)
    (hc : 0 < c) (ht0 : 0 < t) (ht1 : t < 1) (hd : 0 ≤ d) :
    (sliceXiArg c d x t < 0 ∨ sliceXi c d x t ≤ 0 →
      scSweep c d mu sigma x t rt = .ok 0) ∧
    (0 < sliceXi c d x t →
      scSweep c d mu sigma x t rt = .ok (rt (-sliceXi c d x t) (sliceXi c d x t) mu sigma)) ∧
    0 < sliceXi c d x t := by
  have hxd : (0 : ℝ) ≤ x ^ 2 + d := by positivity
  have hs1 : 0 ≤ Real.sqrt (x ^ 2 + d) := Real.sqrt_nonneg _
  have hlt : Real.log t < 0 := Real.log_neg ht0 ht1
  have hq : Real.sqrt (x ^ 2 + d) < -sliceLogY c d x t / c := by
    rw [sliceLogY]
    rw [lt_div_iff₀ hc]
    nlinarith
  have hq2 : (x ^ 2 + d) < (-sliceLogY c d x t / c) ^ 2 := by
    have := pow_lt_pow_left₀ hq hs1 (two_ne_zero)
    rwa [Real.sq_sqrt hxd] at this
  have harg : 0 < sliceXiArg c d x t := by
    rw [sliceXiArg]
    nlinarith [sq_nonneg x]
  have hxi : 0 < sliceXi c d x t := Real.sqrt_pos.mpr harg
  have hrun : scSweep c d mu sigma x t rt =
      .ok (rt (-sliceXi c d x t) (sliceXi c d x t) mu sigma) := by
    have earg : (-(-c * Real.sqrt (x ^ 2 + d) + Real.log t) / c) ^ 2 - d =
        sliceXiArg c d x t := rfl
    rw [scSweep]
    simp only [pySqrt_of_nonneg hxd, pyLog_of_pos ht0, pyDiv_of_ne (ne_of_gt hc), earg,
      pySqrt_of_nonneg (le_of_lt harg)]
    show (if sliceXi c d x t > 0 then _ else _) = _
    rw [if_pos hxi]
    rfl
  refine ⟨?_, fun _ => hrun, hxi⟩
  intro h
  rcases h with h | h
  · exact absurd h (not_lt.mpr (le_of_lt harg))
  · exact absurd hxi (not_lt.mpr h)

/-- Witness for C6's amended statement at `c = 1`, `d = 0`, `x = 0`,
`t = exp(-1)`: the boundary is `xi = 1 > 0` and the sweep returns the
truncated-normal draw. -/
theorem scSweep_cases_witness :
    0 < sliceXi 1 0 0 (Real.exp (-1)) ∧
    scSweep 1 0 0 1 0 (Real.exp (-1)) (fun _ _ _ _ => 5) = .ok 5 := by
  have h := scSweep_cases 1 0 0 1 0 (Real.exp (-1)) (fun _ _ _ _ => 5)
    one_pos (Real.exp_pos _) (Real.exp_lt_one_iff.mpr (by norm_num)) le_rfl
  exact ⟨h.2.2, h.2.1 h.2.2⟩


/-- Any value accepted by the rejection loop is positive, provided `beta`
and the crossover point `xCeil` are positive and all uniform draws lie in
`(0,1)`. -/
lemma condLoop_pos {coupling beta logPmax xCeil lpo lpt : ℝ} {s : ℕ → ℝ}
    (hb : 0 < beta) (hx : 0 < xCeil) (hs : ∀ n, 0 < s n ∧ s n < 1) :
    ∀ fuel i γ, condLoop coupling beta logPmax xCeil lpo lpt s fuel i = some γ → 0 < γ := by
  intro fuel
  induction fuel with
  | zero => intro i γ h; simp [condLoop] at h
  | succ m ih =>
    intro i γ h
    simp only [condLoop] at h
    split_ifs at h with h1 h2 h3
    · -- accepted in the exponential tail: γ = -beta * (log v - xCeil / beta)
      rw [Option.some_inj] at h
      have hv := Real.log_neg (hs (i + 2)).1 (hs (i + 2)).2
      have hdiv : 0 < xCeil / beta := div_pos hx hb
      have : Real.log (s (i + 2)) - xCeil / beta < 0 := by linarith
      subst h; nlinarith
    · exact ih (i + 3) γ h
    · -- accepted in the rectangle: γ = v * xCeil
      rw [Option.some_inj] at h
      subst h; exact mul_pos (hs (i + 2)).1 hx
    · exact ih (i + 3) γ h

/-- Scalar positivity: any value returned by
`_cond_gamma_hyperprior_sampler` is positive. -/
lemma cond_sampler_pos {coupling beta : ℝ} {s : ℕ → ℝ} {fuel : ℕ} {γ : ℝ}
    (hc : 0 ≤ coupling) (hb : 0 < beta) (hs : ∀ n, 0 < s n ∧ s n < 1)
    (h : cond_gamma_hyperprior_sampler' coupling beta s fuel = some γ) : 0 < γ := by
  rw [cond_gamma_hyperprior_sampler'] at h
  by_cases h0 : coupling = 0
  · rw [if_pos h0, Option.some_inj] at h
    have hv := Real.log_neg (hs 0).1 (hs 0).2
    subst h; nlinarith
  · rw [if_neg h0] at h
    have hcpos : 0 < coupling := lt_of_le_of_ne hc (Ne.symm h0)
    have hgm : 0 < Real.sqrt (beta * coupling) := Real.sqrt_pos.mpr (mul_pos hb hcpos)
    have hx : 0 < beta * coupling / Real.sqrt (beta * coupling) + Real.sqrt (beta * coupling) :=
      add_pos (div_pos (mul_pos hb hcpos) hgm) hgm
    exact condLoop_pos hb hx hs fuel 0 γ h

/-- Vector positivity: every element produced by the vector wrapper is
positive. -/
lemma cond_sampler_vec_pos {beta : ℝ} {S : ℕ → ℕ → ℝ} {fuel : ℕ}
    (hb : 0 < beta) (hS : ∀ i n, 0 < S i n ∧ S i n < 1) :
    ∀ (cs : List ℝ) (i : ℕ) (out : List ℝ), (∀ c ∈ cs, 0 ≤ c) →
    cond_gamma_hyperprior_sampler_vec beta S fuel cs i = some out → ∀ γ ∈ out, 0 < γ := by
  intro cs
  induction cs with
  | nil =>
    intro i out _ h γ hγ
    rw [cond_gamma_hyperprior_sampler_vec, Option.some_inj] at h
    subst h; simp at hγ
  | cons c cs ih =>
    intro i out hcs h γ hγ
    rw [cond_gamma_hyperprior_sampler_vec] at h
    rcases hg : cond_gamma_hyperprior_sampler' c beta (S i) fuel with _ | g
    · rw [hg] at h; simp at h
    rcases hgs : cond_gamma_hyperprior_sampler_vec beta S fuel cs (i + 1) with _ | gs
    · rw [hg, hgs] at h; simp at h
    rw [hg, hgs, Option.some_inj] at h
    subst h
    rcases List.mem_cons.mp hγ with hγ | hγ
    · subst hγ
      exact cond_sampler_pos (hcs c (List.mem_cons_self c cs)) hb (hS i) hg
    · exact ih (i + 1) gs (fun c' hc' => hcs c' (List.mem_cons_of_mem _ hc')) hgs γ hγ

/-- The vector wrapper returns one sample per coupling entry. -/
lemma cond_sampler_vec_length {beta : ℝ} {S : ℕ → ℕ → ℝ} {fuel : ℕ} :
    ∀ (cs : List ℝ) (i : ℕ) (out : List ℝ),
    cond_gamma_hyperprior_sampler_vec beta S fuel cs i = some out → out.length = cs.length := by
  intro cs
  induction cs with
  | nil =>
    intro i out h
    rw [cond_gamma_hyperprior_sampler_vec, Option.some_inj] at h
    subst h; rfl
  | cons c cs ih =>
    intro i out h
    rw [cond_gamma_hyperprior_sampler_vec] at h
    rcases hg : cond_gamma_hyperprior_sampler' c beta (S i) fuel with _ | g <;> rw [hg] at h
    · simp at h
    rcases hgs : cond_gamma_hyperprior_sampler_vec beta S fuel cs (i + 1) with _ | gs <;>
      rw [hgs] at h
    · simp at h
    rw [Option.some_inj] at h
    subst h
    simp [ih (i + 1) gs hgs]

/-- C5: for every `coupling ≥ 0` and `beta > 0` (and all uniform draws in
`(0,1)`), every value returned by the hyperparameter conditional sampler is
strictly positive — in the scalar case, and for every element in the vector
case. -/
theorem cond_gamma_hyperprior_sampler_pos (beta : ℝ) (hb : 0 < beta) :
    (∀ (coupling : ℝ) (s : ℕ → ℝ) (fuel : ℕ) (γ : ℝ), 0 ≤ coupling →
      (∀ n, 0 < s n ∧ s n < 1) →
      cond_gamma_hyperprior_sampler' coupling beta s fuel = some γ → 0 < γ) ∧
    (∀ (cs : List ℝ) (S : ℕ → ℕ → ℝ) (fuel : ℕ) (i : ℕ) (out : List ℝ),
      (∀ c ∈ cs, 0 ≤ c) → (∀ i n, 0 < S i n ∧ S i n < 1) →
      cond_gamma_hyperprior_sampler_vec beta S fuel cs i = some out → ∀ γ ∈ out, 0 < γ) :=
  ⟨fun _ s fuel γ hc hs h => cond_sampler_pos hc hb hs h,
   fun cs S fuel i out hcs hS h => cond_sampler_vec_pos hb hS cs i out hcs h⟩

/-- Witness for C5: at `coupling = 0`, `beta = 1` and the constant uniform
stream `exp(-1)`, the sampler returns `1`, which is positive. -/
theorem cond_gamma_hyperprior_sampler_pos_witness :
    cond_gamma_hyperprior_sampler' 0 1 (fun _ => Real.exp (-1)) 1 = some 1 ∧ (0 : ℝ) < 1 := by
  have hres : cond_gamma_hyperprior_sampler' 0 1 (fun _ => Real.exp (-1)) 1 = some 1 := by
    simp [cond_gamma_hyperprior_sampler', Real.log_exp]
  refine ⟨hres, (cond_gamma_hyperprior_sampler_pos 1 one_pos).1 0 _ 1 1 le_rfl
    (fun n => ⟨Real.exp_pos _, Real.exp_lt_one_iff.mpr (by norm_num)⟩) hres⟩

/-!
## Generic inversion lemmas for the error-propagating combinators
-/

lemma except_map_ok {α β : Type} {f : α → β} {e : Except String α} {y : β}
    (h : Except.map f e = .ok y) : ∃ v, e = .ok v ∧ y = f v := by
  cases e with
  | error e => simp [Except.map] at h
  | ok v =>
    refine ⟨v, rfl, ?_⟩
    simp only [Except.map] at h
    exact (Except.ok.injEq _ _ ▸ h).symm

lemma exFold_cons_ok {α β : Type} {f : β → α → Except String β} {a : α} {l : List α}
    {b r : β} (h : exFold f (a :: l) b = .ok r) :
    ∃ b', f b a = .ok b' ∧ exFold f l b' = .ok r := by
  rw [exFold] at h
  cases hfa : f b a with
  | error e => rw [hfa] at h; exact absurd h (by simp)
  | ok b' => rw [hfa] at h; exact ⟨b', rfl, h⟩

lemma exFold_nil_ok {α β : Type} {f : β → α → Except String β} {b r : β}
    (h : exFold f [] b = .ok r) : r = b := by
  rw [exFold] at h
  exact (Except.ok.injEq _ _ ▸ h).symm

lemma exFold_append {α β : Type} (f : β → α → Except String β) (l₁ l₂ : List α) (b : β) :
    exFold f (l₁ ++ l₂) b = match exFold f l₁ b with
      | .error e => .error e
      | .ok b' => exFold f l₂ b' := by
  induction l₁ generalizing b with
  | nil => rfl
  | cons a l ih =>
    rw [List.cons_append, exFold, exFold]
    cases f b a with
    | error e => rfl
    | ok b' => exact ih b'

/-!
## C8: the incrementally maintained running squared norm
-/

/-- Updating one in-block entry changes the block's squared Frobenius norm
by replacing that entry's square. -/
lemma blockFrobSq_update {nO nT : ℕ} (X : ℕ → ℕ → ℝ) {jLoc o t : ℕ} (v : ℝ)
    (ho : o < nO) (ht : t < nT) :
    blockFrobSq nO nT (updEntry X (o + jLoc * nO) t v) jLoc =
      blockFrobSq nO nT X jLoc - (X (o + jLoc * nO) t) ^ 2 + v ^ 2 := by
  rw [blockFrobSq, blockFrobSq]
  have key : ∀ o' ∈ Finset.range nO, ∀ t' ∈ Finset.range nT,
      (updEntry X (o + jLoc * nO) t v (jLoc * nO + o') t') ^ 2 =
      (X (jLoc * nO + o') t') ^ 2 +
        (if o' = o then (if t' = t then v ^ 2 - (X (o + jLoc * nO) t) ^ 2 else 0) else 0) := by
    intro o' _ t' _
    rw [updEntry]
    by_cases ho' : o' = o
    · by_cases ht' : t' = t
      · have hidx : jLoc * nO + o' = o + jLoc * nO := by omega
        rw [if_pos ⟨hidx, ht'⟩, if_pos ho', if_pos ht', hidx, ht']
        ring
      · rw [if_neg (fun hh => ht' hh.2), if_pos ho', if_neg ht']
        ring
    · have hidx : ¬(jLoc * nO + o' = o + jLoc * nO ∧ t' = t) := by
        rintro ⟨h1, _⟩; exact ho' (by omega)
      rw [if_neg hidx, if_neg ho']
      ring
  rw [Finset.sum_congr rfl (fun o' ho' => Finset.sum_congr rfl (fun t' ht' => key o' ho' t' ht'))]
  rw [Finset.sum_congr rfl (fun o' _ => Finset.sum_add_distrib), Finset.sum_add_distrib]
  have hinner : ∀ o' ∈ Finset.range nO,
      (∑ t' ∈ Finset.range nT, (if o' = o then
        (if t' = t then v ^ 2 - (X (o + jLoc * nO) t) ^ 2 else 0) else 0)) =
      (if o' = o then v ^ 2 - (X (o + jLoc * nO) t) ^ 2 else 0) := by
    intro o' _
    by_cases ho' : o' = o
    · simp only [if_pos ho']
      rw [Finset.sum_ite_eq' (Finset.range nT) t (fun _ => v ^ 2 - (X (o + jLoc * nO) t) ^ 2)]
      rw [if_pos (Finset.mem_range.mpr ht)]
    · simp [if_neg ho']
  rw [Finset.sum_congr rfl hinner,
    Finset.sum_ite_eq' (Finset.range nO) o (fun _ => v ^ 2 - (X (o + jLoc * nO) t) ^ 2),
    if_pos (Finset.mem_range.mpr ho)]
  ring

/-- One innermost-loop step keeps the running squared norm equal to the
block's actual squared Frobenius norm. -/
lemma entryStep_preserves_norm {ctx : DriverCtx} {a c : ℝ} {jLoc : ℕ} {p : ℕ × ℕ}
    (hp1 : p.1 < ctx.nT) (hp2 : p.2 < ctx.nO)
    {X : ℕ → ℕ → ℝ} {s : ℝ} {cnt : ℕ} {X' : ℕ → ℕ → ℝ} {s' : ℝ} {cnt' : ℕ}
    (hs : s = blockFrobSq ctx.nO ctx.nT X jLoc)
    (h : entryStep ctx a c jLoc p (X, s, cnt) = .ok (X', s', cnt')) :
    s' = blockFrobSq ctx.nO ctx.nT X' jLoc := by
  simp only [entryStep] at h
  obtain ⟨v, _, heq⟩ := except_map_ok h
  obtain ⟨hX', hrest⟩ := Prod.mk.injEq _ _ _ _ ▸ heq
  obtain ⟨hs', _⟩ := Prod.mk.injEq _ _ _ _ ▸ hrest
  rw [hX', blockFrobSq_update X v hp2 hp1, ← hs, hs']

/-- C8: during the per-coordinate updates of one group, the incrementally
maintained running squared norm (updated as `d + new_entry^2` after each
slice-sampler call) equals the actual squared Frobenius norm of the group's
current amplitude sub-block after processing any list of in-range
(time, orientation) pairs on which it was equal initially — in particular
before and after every single-entry update of the driver's inner loop. -/
theorem XLocSqNorm_invariant (ctx : DriverCtx) (a c : ℝ) (jLoc : ℕ)
    (ps : List (ℕ × ℕ)) (hps : ∀ p ∈ ps, p.1 < ctx.nT ∧ p.2 < ctx.nO) :
    ∀ (X : ℕ → ℕ → ℝ) (s : ℝ) (cnt : ℕ) (X' : ℕ → ℕ → ℝ) (s' : ℝ) (cnt' : ℕ),
    s = blockFrobSq ctx.nO ctx.nT X jLoc →
    exFold (fun st p => entryStep ctx a c jLoc p st) ps (X, s, cnt) = .ok (X', s', cnt') →
    s' = blockFrobSq ctx.nO ctx.nT X' jLoc := by
  induction ps with
  | nil =>
    intro X s cnt X' s' cnt' hs h
    have := exFold_nil_ok h
    obtain ⟨hX', hrest⟩ := Prod.mk.injEq _ _ _ _ ▸ this
    obtain ⟨hs', _⟩ := Prod.mk.injEq _ _ _ _ ▸ hrest
    rw [hs', hX', hs]
  | cons p ps ih =>
    intro X s cnt X' s' cnt' hs h
    obtain ⟨⟨X1, s1, cnt1⟩, hstep, hrest⟩ := exFold_cons_ok h
    have hp := hps p (List.mem_cons_self p ps)
    have h1 := entryStep_preserves_norm hp.1 hp.2 hs hstep
    exact ih (fun q hq => hps q (List.mem_cons_of_mem p hq)) X1 s1 cnt1 X' s' cnt' h1 hrest

/-- With a positive quadratic coefficient and zero sweeps the slice sampler
passes its guard, computes `sigma` and `mu`, and returns the start state. -/
lemma sc_slice_sampler_zero_sweeps {a b c d x0 : ℝ} (ha : 0 < a)
    (ts : ℕ → ℝ) (rt : ℕ → ℝ → ℝ → ℝ → ℝ → ℝ) :
    sc_slice_sampler a b c d x0 0 ts rt = .ok x0 := by
  have h2a : (0 : ℝ) ≤ 2 * a := by positivity
  have hs2a : Real.sqrt (2 * a) ≠ 0 := ne_of_gt (Real.sqrt_pos.mpr (by positivity))
  have h2a' : (2 : ℝ) * a ≠ 0 := by positivity
  have hcond : ¬(a = 0 ∧ b = 0) := fun h => absurd h.1 (ne_of_gt ha)
  simp only [sc_slice_sampler, pySqrt_of_nonneg h2a, pyDiv_of_ne hs2a, pyDiv_of_ne h2a',
    scLoop]
  rw [if_pos hcond]

/-- Witness for C8: one update of the single entry of a 1 × 1 block starting
from the zero matrix; the running norm `0` matches the block norm of the
updated matrix. -/
theorem XLocSqNorm_invariant_witness :
    (0 : ℝ) = blockFrobSq 1 1 (updEntry (fun _ _ => 0) 0 0 0) 0 := by
  have hstep : entryStep (mkCtxW 1) 1 1 0 (0, 0) ((fun _ _ => (0 : ℝ)), 0, 0) =
      .ok (updEntry (fun _ _ => 0) 0 0 0, 0, 1) := by
    simp only [entryStep, mkCtxW, sc_slice_sampler_zero_sweeps one_pos, Except.map]
    norm_num
  have hfold : exFold (fun st p => entryStep (mkCtxW 1) 1 1 0 p st) [(0, 0)]
      ((fun _ _ => (0 : ℝ)), 0, 0) = .ok (updEntry (fun _ _ => 0) 0 0 0, 0, 1) := by
    simp only [exFold, hstep]
  exact XLocSqNorm_invariant (mkCtxW 1) 1 1 0 [(0, 0)]
    (by intro p hp; simp only [List.mem_singleton] at hp; subst hp; exact ⟨one_pos, one_pos⟩)
    (fun _ _ => 0) 0 0 _ 0 1 (by simp [blockFrobSq]) hfold

/-!
## Structural lemmas about the outer loop
-/

lemma outerFold_nil_ok {ctx : DriverCtx} {s r : DState}
    (h : outerFold ctx [] s = .ok r) : r = s := by
  rw [outerFold] at h
  exact (Except.ok.injEq _ _ ▸ h).symm

lemma outerFold_cons_ok {ctx : DriverCtx} {k : ℤ} {l : List ℤ} {s r : DState}
    (h : outerFold ctx (k :: l) s = .ok r) :
    ∃ s', outerIter ctx k s = .ok s' ∧ outerFold ctx l s' = .ok r := by
  rw [outerFold] at h
  cases hit : outerIter ctx k s with
  | error e => rw [hit] at h; exact absurd h (by simp)
  | ok s' => rw [hit] at h; exact ⟨s', rfl, h⟩

lemma outerFold_cons_eq {ctx : DriverCtx} {k : ℤ} {s s' : DState} (l : List ℤ)
    (h : outerIter ctx k s = .ok s') :
    outerFold ctx (k :: l) s = outerFold ctx l s' := by
  rw [outerFold, h]

lemma outerFold_append (ctx : DriverCtx) (l₁ l₂ : List ℤ) (s : DState) :
    outerFold ctx (l₁ ++ l₂) s = match outerFold ctx l₁ s with
      | .error e => .error e
      | .ok s' => outerFold ctx l₂ s' := by
  induction l₁ generalizing s with
  | nil => rfl
  | cons k l ih =>
    rw [List.cons_append, outerFold, outerFold]
    cases outerIter ctx k s with
    | error e => rfl
    | ok s' => exact ih s'

/-- Anatomy of a successful outer iteration: the chains are extended by the
new snapshots exactly when `k ≥ 0`, and the new hyperparameter vector comes
from a successful hyperprior-sampler call on the current per-group norms. -/
lemma outerIter_ok {ctx : DriverCtx} {k : ℤ} {s s' : DState}
    (h : outerIter ctx k s = .ok s') :
    (0 ≤ k → s'.XChain = s.XChain ++ [s'.X] ∧ s'.gammaChain = s.gammaChain ++ [s'.gammas]) ∧
    (k < 0 → s'.XChain = s.XChain ∧ s'.gammaChain = s.gammaChain) ∧
    ∃ gs, cond_gamma_hyperprior_sampler_vec ctx.beta (ctx.condOracle k) ctx.fuel
        (couplingsOf ctx s'.X) 0 = some gs ∧ s'.gammas = fun j => gs.getD j 0 := by
  rw [outerIter] at h
  rcases hin : innerSweeps ctx s.gammas k (s.X, s.cnt) with e | ⟨X1, cnt1⟩ <;>
    simp only [hin] at h
  · exact absurd h (by simp)
  rcases hcv : cond_gamma_hyperprior_sampler_vec ctx.beta (ctx.condOracle k) ctx.fuel
      (couplingsOf ctx X1) 0 with _ | gs <;> simp only [hcv] at h
  · exact absurd h (by simp)
  by_cases hk : 0 ≤ k
  · rw [if_pos hk] at h
    have hs' := (Except.ok.injEq _ _ ▸ h).symm
    subst hs'
    exact ⟨fun _ => ⟨rfl, rfl⟩, fun hneg => absurd hk (not_le.mpr hneg), gs, hcv, rfl⟩
  · rw [if_neg hk] at h
    have hs' := (Except.ok.injEq _ _ ▸ h).symm
    subst hs'
    exact ⟨fun hpos => absurd hpos hk, fun _ => ⟨rfl, rfl⟩, gs, hcv, rfl⟩

/-- Every hyperparameter vector installed by a successful outer iteration is
positive on all `n_locations` coordinates (given `beta > 0` and uniform
draws in `(0,1)`). -/
lemma outerIter_gammas_pos {ctx : DriverCtx} {k : ℤ} {s s' : DState}
    (hb : 0 < ctx.beta)
    (hU : ∀ i n, 0 < ctx.condOracle k i n ∧ ctx.condOracle k i n < 1)
    (h : outerIter ctx k s = .ok s') : ∀ j < ctx.nL, 0 < s'.gammas j := by
  obtain ⟨-, -, gs, hgs, hgam⟩ := outerIter_ok h
  intro j hj
  have hlen : gs.length = ctx.nL := by
    rw [cond_sampler_vec_length _ 0 gs hgs, couplingsOf, List.length_map, List.length_range]
  have hj' : j < gs.length := hlen ▸ hj
  have hmem : gs.getD j 0 ∈ gs := by
    rw [List.getD_eq_getElem gs 0 hj']
    exact List.getElem_mem hj'
  have hcoup : ∀ c ∈ couplingsOf ctx s'.X, 0 ≤ c := by
    intro c hc
    rw [couplingsOf] at hc
    obtain ⟨i, -, hi⟩ := List.mem_map.mp hc
    rw [← hi]
    exact Real.sqrt_nonneg _
  rw [hgam]
  exact cond_sampler_vec_pos hb hU (couplingsOf ctx s'.X) 0 gs hcoup hgs _ hmem

/-- Chains only grow along the outer loop, and any new element of the
hyperparameter chain is positive on all coordinates. -/
lemma gammaChain_mem_pos (ctx : DriverCtx) (hb : 0 < ctx.beta)
    (hU : ∀ (k : ℤ) (i n : ℕ), 0 < ctx.condOracle k i n ∧ ctx.condOracle k i n < 1) :
    ∀ (l : List ℤ) (s sfin : DState), outerFold ctx l s = .ok sfin →
    ∀ g ∈ sfin.gammaChain, g ∈ s.gammaChain ∨ ∀ j < ctx.nL, 0 < g j := by
  intro l
  induction l with
  | nil =>
    intro s sfin h g hg
    rw [outerFold_nil_ok h] at hg
    exact Or.inl hg
  | cons k l ih =>
    intro s sfin h g hg
    obtain ⟨s1, hit, hrest⟩ := outerFold_cons_ok h
    rcases ih s1 sfin hrest g hg with hg1 | hpos
    · rcases le_or_lt 0 k with hk | hk
      · rw [((outerIter_ok hit).1 hk).2] at hg1
        rcases List.mem_append.mp hg1 with hg2 | hg2
        · exact Or.inl hg2
        · rw [List.mem_singleton.mp hg2]
          exact Or.inr (outerIter_gammas_pos hb (hU k) hit)
      · rw [((outerIter_ok hit).2.1 hk).2] at hg1
        exact Or.inl hg1
    · exact Or.inr hpos

/-- The post-burn-in iteration indices `0, 1, …, n-1`. -/
def sampTail (n : ℕ) : List ℤ := (List.range n).map (fun i : ℕ => (i : ℤ))

lemma sampTail_succ (n : ℕ) : sampTail (n + 1) = sampTail n ++ [(n : ℤ)] := by
  rw [sampTail, sampTail, List.range_succ, List.map_append]
  rfl

/-- `range(-n_burnin, n_samples)` splits into the burn-in indices (all
negative) followed by the sample indices `0 … n_samples - 1`. -/
lemma ksList_decomp (b n : ℕ) :
    ksList b n = (List.range b).map (fun i : ℕ => (i : ℤ) - b) ++ sampTail n := by
  rw [ksList, List.range_add, List.map_append, List.map_map, sampTail]
  congr 1
  apply List.map_congr_left
  intro i _
  simp only [Function.comp_apply]
  push_cast
  ring

/-- During the burn-in phase (all indices negative) the chains do not
change. -/
lemma burn_phase (ctx : DriverCtx) :
    ∀ (l : List ℤ), (∀ k ∈ l, k < 0) → ∀ (s s' : DState), outerFold ctx l s = .ok s' →
    s'.XChain = s.XChain ∧ s'.gammaChain = s.gammaChain := by
  intro l
  induction l with
  | nil =>
    intro _ s s' h
    rw [outerFold_nil_ok h]
    exact ⟨rfl, rfl⟩
  | cons k l ih =>
    intro hneg s s' h
    obtain ⟨s1, hit, hrest⟩ := outerFold_cons_ok h
    have h1 := (outerIter_ok hit).2.1 (hneg k (List.mem_cons_self k l))
    have h2 := ih (fun q hq => hneg q (List.mem_cons_of_mem k hq)) s1 s' hrest
    exact ⟨h2.1.trans h1.1, h2.2.trans h1.2⟩

/-- Running the sampling phase appends exactly one snapshot per iteration,
and the chain entry at offset `k` is the state reached right after the
`(k+1)`-st sampling iteration. -/
lemma sample_phase (ctx : DriverCtx) :
    ∀ (n : ℕ) (s sfin : DState), outerFold ctx (sampTail n) s = .ok sfin →
    sfin.XChain.length = s.XChain.length + n ∧
    sfin.gammaChain.length = s.gammaChain.length + n ∧
    ∀ k < n, ∃ sk, outerFold ctx (sampTail (k + 1)) s = .ok sk ∧
      sfin.XChain[s.XChain.length + k]? = some sk.X ∧
      sfin.gammaChain[s.gammaChain.length + k]? = some sk.gammas := by
  intro n
  induction n with
  | zero =>
    intro s sfin h
    rw [show sampTail 0 = [] from rfl] at h
    rw [outerFold_nil_ok h]
    exact ⟨rfl, rfl, fun k hk => absurd hk (Nat.not_lt_zero k)⟩
  | succ m ih =>
    intro s sfin h
    have h0 := h
    rw [sampTail_succ, outerFold_append] at h
    rcases hfm : outerFold ctx (sampTail m) s with e | sm <;> rw [hfm] at h
    · exact absurd h (by simp)
    obtain ⟨s', hit, hnil⟩ := outerFold_cons_ok h
    have hs' := outerFold_nil_ok hnil
    subst hs'
    obtain ⟨hlx, hlg, hk⟩ := ih s sm hfm
    have hstore := (outerIter_ok hit).1 (Int.ofNat_nonneg m)
    refine ⟨?_, ?_, ?_⟩
    · rw [hstore.1, List.length_append, hlx, List.length_singleton]; omega
    · rw [hstore.2, List.length_append, hlg, List.length_singleton]; omega
    · intro k hkm
      rcases Nat.lt_succ_iff_lt_or_eq.mp hkm with hlt | heq
      · obtain ⟨sk, hrun, hx, hg⟩ := hk k hlt
        refine ⟨sk, hrun, ?_, ?_⟩
        · rw [hstore.1, List.getElem?_append_left (by rw [hlx]; omega)]
          exact hx
        · rw [hstore.2, List.getElem?_append_left (by rw [hlg]; omega)]
          exact hg
      · subst heq
        refine ⟨sfin, h0, ?_, ?_⟩
        · rw [hstore.1, show s.XChain.length + k = sm.XChain.length from by omega,
            List.getElem?_concat_length]
        · rw [hstore.2, show s.gammaChain.length + k = sm.gammaChain.length from by omega,
            List.getElem?_concat_length]

/-- C7: whenever the driver returns, `XChain` and `gammaChain` hold exactly
`n_samples` snapshots; entry `k` is the pair of `X` and `gamma` states
reached at the end of post-burn-in outer iteration `k` (the run over the
burn-in indices followed by `k + 1` sample indices); and, given `beta > 0`
and uniform draws in `(0,1)`, every stored hyperparameter vector is strictly
positive on all `n_locations` coordinates. -/
theorem L21_chains (ctx : DriverCtx) (X0 : ℕ → ℕ → ℝ) (gammas0 : ℕ → ℝ)
    (n_burnin n_samples : ℕ) (XC : List (ℕ → ℕ → ℝ)) (GC : List (ℕ → ℝ))
    (hrun : L21_gamma_hypermodel_sampler ctx X0 gammas0 n_burnin n_samples = .ok (XC, GC))
    (hb : 0 < ctx.beta)
    (hU : ∀ (k : ℤ) (i n : ℕ), 0 < ctx.condOracle k i n ∧ ctx.condOracle k i n < 1) :
    XC.length = n_samples ∧ GC.length = n_samples ∧
    (∀ k < n_samples, ∃ sk,
      outerFold ctx ((List.range n_burnin).map (fun i : ℕ => (i : ℤ) - n_burnin) ++
        sampTail (k + 1)) (initState ctx X0 gammas0) = .ok sk ∧
      XC[k]? = some sk.X ∧ GC[k]? = some sk.gammas) ∧
    ∀ g ∈ GC, ∀ j < ctx.nL, 0 < g j := by
  rw [L21_gamma_hypermodel_sampler] at hrun
  rcases hfold : outerFold ctx (ksList n_burnin n_samples) (initState ctx X0 gammas0)
    with e | sfin <;> rw [hfold] at hrun
  · exact absurd hrun (by simp)
  have hXC : sfin.XChain = XC ∧ sfin.gammaChain = GC := by
    have h' : Except.ok (ε := String) (sfin.XChain, sfin.gammaChain) = Except.ok (XC, GC) := hrun
    injection h' with h''
    exact ⟨congrArg Prod.fst h'', congrArg Prod.snd h''⟩
  obtain ⟨hXCe, hGCe⟩ := hXC
  subst hXCe; subst hGCe
  rw [ksList_decomp, outerFold_append] at hfold
  rcases hburn : outerFold ctx ((List.range n_burnin).map (fun i : ℕ => (i : ℤ) - n_burnin))
      (initState ctx X0 gammas0) with e | sB <;> rw [hburn] at hfold
  · exact absurd hfold (by simp)
  have hBneg : ∀ k ∈ (List.range n_burnin).map (fun i : ℕ => (i : ℤ) - (n_burnin : ℤ)), k < 0 := by
    intro k hk
    obtain ⟨i, hi, hik⟩ := List.mem_map.mp hk
    rw [← hik]
    have := List.mem_range.mp hi
    omega
  obtain ⟨hBX, hBG⟩ := burn_phase ctx _ hBneg _ _ hburn
  have hIX : sB.XChain = [] := by rw [hBX]; rfl
  have hIG : sB.gammaChain = [] := by rw [hBG]; rfl
  obtain ⟨hlx, hlg, hsnap⟩ := sample_phase ctx n_samples sB sfin hfold
  rw [hIX] at hlx
  rw [hIG] at hlg
  refine ⟨by rw [hlx]; simp, by rw [hlg]; simp, ?_, ?_⟩
  · intro k hk2
    obtain ⟨sk, hrunk, hx, hg⟩ := hsnap k hk2
    refine ⟨sk, ?_, ?_, ?_⟩
    · rw [outerFold_append, hburn]
      exact hrunk
    · rw [hIX] at hx; simpa using hx
    · rw [hIG] at hg; simpa using hg
  · intro g hg j hj
    have := gammaChain_mem_pos ctx hb hU _ _ _ hfold g hg
    rcases this with hmem | hpos
    · rw [hIG] at hmem; exact absurd hmem (List.not_mem_nil g)
    · exact hpos j hj

/-!
## Concrete runs of the driver
-/

/-- The hyperparameter vector produced by each outer iteration of the
minimal configuration `mkCtxW beta`: the single group's amplitude norm is 0,
so `gamma = -beta * log(exp(-1)) = beta`. -/
noncomputable def demoGammaVec (beta : ℝ) : ℕ → ℝ := fun j => List.getD [beta] j 0

lemma mkCtxW_innerSweeps (beta : ℝ) (g : ℕ → ℝ) (k : ℤ) :
    innerSweeps (mkCtxW beta) g k ((fun _ _ => (0 : ℝ)), 0) = .ok ((fun _ _ => 0), 0) := by
  rw [innerSweeps, show (mkCtxW beta).sc_n_samples = 0 from rfl, List.range_zero, exFold]

lemma mkCtxW_couplings (beta : ℝ) :
    couplingsOf (mkCtxW beta) (fun _ _ => 0) = [0] := by
  rw [couplingsOf, show (mkCtxW beta).nL = 1 from Nat.div_self one_pos,
    show List.range 1 = [0] from by decide]
  simp [groups_norm2, mkCtxW]

lemma mkCtxW_scalar (beta : ℝ) (k : ℤ) :
    cond_gamma_hyperprior_sampler' 0 (mkCtxW beta).beta ((mkCtxW beta).condOracle k 0)
      (mkCtxW beta).fuel = some beta := by
  rw [cond_gamma_hyperprior_sampler', if_pos rfl]
  show some (-(mkCtxW beta).beta * Real.log (Real.exp (-1))) = some beta
  rw [Real.log_exp]
  norm_num [mkCtxW]

lemma mkCtxW_condVec (beta : ℝ) (k : ℤ) :
    cond_gamma_hyperprior_sampler_vec (mkCtxW beta).beta ((mkCtxW beta).condOracle k)
      (mkCtxW beta).fuel [0] 0 = some [beta] := by
  rw [cond_gamma_hyperprior_sampler_vec, mkCtxW_scalar beta k,
    cond_gamma_hyperprior_sampler_vec]

/-- One outer iteration of the minimal configuration: no inner sweeps, the
hyperparameters are redrawn to `[beta]`, and (for `k ≥ 0`) the snapshots are
appended. -/
lemma mkCtxW_outerIter (beta : ℝ) (k : ℤ) (hk : 0 ≤ k) (g : ℕ → ℝ)
    (XC : List (ℕ → ℕ → ℝ)) (GC : List (ℕ → ℝ)) :
    outerIter (mkCtxW beta) k ⟨(fun _ _ => 0), g, 0, XC, GC⟩ =
      .ok ⟨(fun _ _ => 0), demoGammaVec beta, 0,
        XC ++ [(fun _ _ => 0)], GC ++ [demoGammaVec beta]⟩ := by
  rw [outerIter]
  simp only [mkCtxW_innerSweeps beta g k, mkCtxW_couplings beta, mkCtxW_condVec beta k]
  rw [if_pos hk]
  rfl

/-- The driver's start state for the minimal configuration: the all-zeros
`X0` fails `X0.all()`, so `X` starts from zeros. -/
lemma mkCtxW_initState (beta : ℝ) :
    initState (mkCtxW beta) (fun _ _ => 0) (fun _ => 1) =
      ⟨(fun _ _ => 0), (fun _ => 1), 0, [], []⟩ := by
  rw [initState]
  have hX0 : initX (mkCtxW beta).nD (mkCtxW beta).nT (fun _ _ => (0 : ℝ)) = fun _ _ => 0 := by
    rw [initX, if_pos (show ¬X0all (mkCtxW beta).nD (mkCtxW beta).nT (fun _ _ => (0 : ℝ))
      from fun hall => hall 0 one_pos 0 one_pos rfl)]
  rw [hX0]

/-- C3: the driver performs no entry validation at all — called with the
invalid hyperprior scale `beta = -1` it does not fail fast but runs to
completion, returning chains whose stored hyperparameter is the negative
value `-1`. -/
theorem L21_no_entry_validation :
    L21_gamma_hypermodel_sampler (mkCtxW (-1)) (fun _ _ => 0) (fun _ => 1) 0 1 =
      .ok ([fun _ _ => (0 : ℝ)], [demoGammaVec (-1)]) ∧ demoGammaVec (-1) 0 = -1 := by
  constructor
  · rw [L21_gamma_hypermodel_sampler, show ksList 0 1 = [(0 : ℤ)] from by decide,
      mkCtxW_initState (-1),
      outerFold_cons_eq [] (mkCtxW_outerIter (-1) 0 le_rfl (fun _ => 1) [] []),
      outerFold]
    rfl
  · rfl

/-- Witness for C7: the minimal configuration with `beta = 1`, `n_burnin =
0`, `n_samples = 5` returns chains of length 5 whose stored hyperparameter
vectors are strictly positive. -/
theorem L21_chains_witness :
    (List.replicate 5 (fun _ _ => (0 : ℝ)) : List (ℕ → ℕ → ℝ)).length = 5 ∧
    (List.replicate 5 (demoGammaVec 1)).length = 5 ∧ 0 < demoGammaVec 1 0 := by
  have hrun : L21_gamma_hypermodel_sampler (mkCtxW 1) (fun _ _ => 0) (fun _ => 1) 0 5 =
      .ok (List.replicate 5 (fun _ _ => (0 : ℝ)), List.replicate 5 (demoGammaVec 1)) := by
    rw [L21_gamma_hypermodel_sampler, show ksList 0 5 = [0, 1, 2, 3, 4] from by decide,
      mkCtxW_initState 1,
      outerFold_cons_eq [1, 2, 3, 4] (mkCtxW_outerIter 1 0 (by norm_num) (fun _ => 1) [] [])]
    rw [outerFold_cons_eq [2, 3, 4] (mkCtxW_outerIter 1 1 (by norm_num) (demoGammaVec 1)
      ([] ++ [(fun _ _ => 0)]) ([] ++ [demoGammaVec 1]))]
    rw [outerFold_cons_eq [3, 4] (mkCtxW_outerIter 1 2 (by norm_num) (demoGammaVec 1)
      (([] ++ [(fun _ _ => 0)]) ++ [(fun _ _ => 0)]) (([] ++ [demoGammaVec 1]) ++ [demoGammaVec 1]))]
    rw [outerFold_cons_eq [4] (mkCtxW_outerIter 1 3 (by norm_num) (demoGammaVec 1)
      ((([] ++ [(fun _ _ => 0)]) ++ [(fun _ _ => 0)]) ++ [(fun _ _ => 0)])
      ((([] ++ [demoGammaVec 1]) ++ [demoGammaVec 1]) ++ [demoGammaVec 1]))]
    rw [outerFold_cons_eq [] (mkCtxW_outerIter 1 4 (by norm_num) (demoGammaVec 1)
      (((([] ++ [(fun _ _ => 0)]) ++ [(fun _ _ => 0)]) ++ [(fun _ _ => 0)]) ++ [(fun _ _ => 0)])
      (((([] ++ [demoGammaVec 1]) ++ [demoGammaVec 1]) ++ [demoGammaVec 1]) ++ [demoGammaVec 1]))]
    rw [outerFold]
    rfl
  obtain ⟨h1, h2, -, h4⟩ := L21_chains (mkCtxW 1) (fun _ _ => 0) (fun _ => 1) 0 5 _ _ hrun
    one_pos (fun k i n => ⟨Real.exp_pos _, Real.exp_lt_one_iff.mpr (by norm_num)⟩)
  exact ⟨h1, h2, h4 (demoGammaVec 1)
    (by simp [List.mem_replicate]) 0 one_pos⟩
